import Mathlib

/-!
Verification of the filter-and-aggregation pipeline of the Banggood product
dashboard (src/banggood_dashboard.py).  The relevant source is the body of
`main`: the sidebar filter construction (lines 74-101), the KPI metrics
(lines 106-137), the price-category pie data (lines 186-187), the top-N
tables (lines 244-262) and the CSV download (line 271).

Numeric attributes (price, rating, value_score, popularity_index) are
modelled as rationals; pandas' float NaN, which arises as the mean of an
empty column, is modelled explicitly by the `FVal` type.
-/

namespace Banggood

/-- Product record: one row of the `products` table, with the attributes the
dashboard reads (name, category, price, rating, review_count, value_score,
popularity_index, price_category). -/
structure Product where
  name : String
  category : String
  price : ℚ
  rating : ℚ
  review_count : Nat
  value_score : ℚ
  popularity_index : ℚ
  price_category : String
deriving DecidableEq, Repr

/-- Filter predicate assembled from the sidebar widgets: the category
selectbox value and the two range sliders (lines 74-89). -/
structure FilterPredicate where
  category : String
  priceMin : ℚ
  priceMax : ℚ
  ratingMin : ℚ
  ratingMax : ℚ
deriving DecidableEq, Repr

/-- Category step of the filter (lines 92-94): when the selected category is
not the sentinel "All", keep only the rows whose category equals it. -/
def categoryFilter (sel : String) (df : List Product) : List Product :=
  if sel ≠ "All" then df.filter (fun r => decide (r.category = sel)) else df

/-- Range step of the filter (lines 96-101): the conjunctive boolean mask on
price and rating, both bounds inclusive. -/
def rangeFilter (P : FilterPredicate) (df : List Product) : List Product :=
  df.filter (fun r =>
    decide (P.priceMin ≤ r.price) && decide (r.price ≤ P.priceMax) &&
    decide (P.ratingMin ≤ r.rating) && decide (r.rating ≤ P.ratingMax))

/-- The full filter pipeline (lines 92-101): category step, then range step,
applied to the loaded record set in order. -/
def applyFilter (df : List Product) (P : FilterPredicate) : List Product :=
  rangeFilter P (categoryFilter P.category df)

/-- The conjunction of the three filter conditions of the spec: category
match or "All", price in range, rating in range. -/
def matchesPred (P : FilterPredicate) (r : Product) : Bool :=
  (decide (r.category = P.category) || decide (P.category = "All")) &&
  decide (P.priceMin ≤ r.price) && decide (r.price ≤ P.priceMax) &&
  decide (P.ratingMin ≤ r.rating) && decide (r.rating ≤ P.ratingMax)

/-- Relation between two predicates: the second is the first with exactly one
bound of the price or rating range widened (a minimum lowered or a maximum
raised). -/
def widensOneBound (P Q : FilterPredicate) : Prop :=
  (∃ m, m ≤ P.priceMin ∧ Q = { P with priceMin := m }) ∨
  (∃ m, P.priceMax ≤ m ∧ Q = { P with priceMax := m }) ∨
  (∃ m, m ≤ P.ratingMin ∧ Q = { P with ratingMin := m }) ∨
  (∃ m, P.ratingMax ≤ m ∧ Q = { P with ratingMax := m })

/-- Value of a float-valued pandas computation: either an ordinary number or
NaN.  `Series.mean` over an empty numeric column evaluates to NaN rather
than raising an exception. -/
inductive FVal where
  | nan : FVal
  | val : ℚ → FVal
deriving DecidableEq, Repr

/-- Mean of a numeric column as pandas computes it: NaN on an empty column,
the arithmetic mean otherwise (lines 116, 124). -/
def seriesMean (l : List ℚ) : FVal :=
  if l.length = 0 then FVal.nan else FVal.val (l.sum / (l.length : ℚ))

/-- Subtraction of float values as used by the delta expressions (lines 120,
128): NaN propagates through subtraction. -/
def fsub : FVal → FVal → FVal
  | FVal.val a, FVal.val b => FVal.val (a - b)
  | _, _ => FVal.nan

/-- Error taxonomy named by the spec for the derived-view builder. -/
inductive KPIError where
  | emptyInput
deriving DecidableEq, Repr

/-- KPI values shown by the four st.metric calls (lines 108-137): count,
mean price, mean rating, review-count sum, each with its optional delta
(the delta argument is None when the selected category is "All"). -/
structure KPISet where
  count : Nat
  countDelta : Option Int
  avgPrice : FVal
  avgPriceDelta : Option FVal
  avgRating : FVal
  avgRatingDelta : Option FVal
  totalReviews : Nat
  totalReviewsDelta : Option Int
deriving DecidableEq, Repr

/-- KPI computation of lines 108-137: `len(filtered_df)`,
`filtered_df['price'].mean()`, `filtered_df['rating'].mean()`,
`filtered_df['review_count'].sum()`, with each delta computed against the
unfiltered frame and attached only when `selected_category != 'All'`. -/
def computeKPIs (df filtered : List Product) (selectedCategory : String) : KPISet :=
  { count := filtered.length
  , countDelta :=
      if selectedCategory ≠ "All" then
        some ((filtered.length : Int) - (df.length : Int))
      else none
  , avgPrice := seriesMean (filtered.map Product.price)
  , avgPriceDelta :=
      if selectedCategory ≠ "All" then
        some (fsub (seriesMean (filtered.map Product.price))
                (seriesMean (df.map Product.price)))
      else none
  , avgRating := seriesMean (filtered.map Product.rating)
  , avgRatingDelta :=
      if selectedCategory ≠ "All" then
        some (fsub (seriesMean (filtered.map Product.rating))
                (seriesMean (df.map Product.rating)))
      else none
  , totalReviews := (filtered.map Product.review_count).sum
  , totalReviewsDelta :=
      if selectedCategory ≠ "All" then
        some (((filtered.map Product.review_count).sum : Int) -
          ((df.map Product.review_count).sum : Int))
      else none }

/-- KPI computation embedded in the error monad.  The Python code raises no
exception on this path: pandas mean of an empty column is NaN, a value that
is formatted and displayed, so the embedded computation always succeeds.
The `Except` wrapper makes the absence of a failure expressible. -/
def computeKPIsE (df filtered : List Product) (selectedCategory : String) :
    Except KPIError KPISet :=
  Except.ok (computeKPIs df filtered selectedCategory)

/-- Ranking keys of the four top-products tabs (lines 246-262). -/
inductive RankKey where
  | rating | review_count | value_score | popularity_index
deriving DecidableEq, Repr

/-- Attribute read by each ranking key; `review_count` is an integer column
and is compared numerically. -/
def keyFn : RankKey → Product → ℚ
  | RankKey.rating => Product.rating
  | RankKey.review_count => fun r => (r.review_count : ℚ)
  | RankKey.value_score => Product.value_score
  | RankKey.popularity_index => Product.popularity_index

/-- Descending comparison used to order rows by a ranking key. -/
def keyGE (K : RankKey) (a b : Product) : Bool :=
  decide (keyFn K b ≤ keyFn K a)

/-- Top-N projection of lines 246-262: `nlargest(10, key)` returns the rows
ordered by the key descending — a stable descending sort truncated to the
first 10 rows, ties kept in their first-seen order (keep='first'). -/
def topN (F : List Product) (K : RankKey) : List Product :=
  (F.mergeSort (keyGE K)).take 10

/-- First occurrence of every value of a column in order of appearance, as
`Series.unique` computes it; the `seen` accumulator holds the values already
emitted. -/
def uniqueFirstAux (seen : List String) : List String → List String
  | [] => []
  | a :: l =>
      if a ∈ seen then uniqueFirstAux seen l
      else a :: uniqueFirstAux (a :: seen) l

/-- Distinct values of a column in order of first appearance
(`Series.unique`). -/
def uniqueFirst (l : List String) : List String :=
  uniqueFirstAux [] l

/-- Category selectbox options (line 74):
`['All'] + sorted(df['category'].unique().tolist())`. -/
def distinctCategories (R : List Product) : List String :=
  "All" :: List.insertionSort (fun a b => a ≤ b) (uniqueFirst (R.map Product.category))

/-- Minimum of a nonempty numeric column (`Series.min`); 0 on the empty
column, where the dashboard would not render a slider anyway. -/
def listMin : List ℚ → ℚ
  | [] => 0
  | a :: l => l.foldl min a

/-- Maximum of a nonempty numeric column (`Series.max`). -/
def listMax : List ℚ → ℚ
  | [] => 0
  | a :: l => l.foldl max a

/-- Predicate produced with no user interaction (lines 74-89): category
defaults to "All", the price slider defaults to the full observed price
range, and the rating slider defaults to the interval (3.0, 5.0). -/
def defaultPredicate (R : List Product) : FilterPredicate :=
  { category := "All"
  , priceMin := listMin (R.map Product.price)
  , priceMax := listMax (R.map Product.price)
  , ratingMin := 3
  , ratingMax := 5 }

/-- Occurrence counts of a column's values (`Series.value_counts`, line
186): one pair per distinct value, keys in first-seen order before pandas
sorts the pairs by count descending. -/
def valueCounts (l : List String) : List (String × Nat) :=
  ((uniqueFirst l).map (fun c => (c, l.count c))).mergeSort
    (fun a b => decide (b.2 ≤ a.2))

/-- Pie chart data of lines 186-187: value counts of the `price_category`
column of the filtered frame. -/
def priceCategoryDistribution (F : List Product) : List (String × Nat) :=
  valueCounts (F.map Product.price_category)

/-! CSV export (line 271, `filtered_df.to_csv(index=False)`) and its
round trip.  The serializer below embeds the delimited format the code
emits: one header row of attribute names, one comma-separated row per
record, a trailing newline after every row, and minimal quoting — a field
is wrapped in double quotes exactly when it contains a delimiter, a quote,
or a line-break character, with embedded quotes doubled.  The repository
only writes this format; the reader against which the round trip is stated
is modelled from the spec (see `parseCsv`). -/

/-- Character of a decimal digit. -/
def digitToChar : Nat → Char
  | 0 => '0' | 1 => '1' | 2 => '2' | 3 => '3' | 4 => '4'
  | 5 => '5' | 6 => '6' | 7 => '7' | 8 => '8' | _ => '9'

/-- Numeric value of a digit character. -/
def charToDigit (c : Char) : Nat := c.toNat - 48

/-- Test for a decimal digit character. -/
def isDigitChar (c : Char) : Bool := decide ('0' ≤ c) && decide (c ≤ '9')

/-- Decimal rendering of a natural number, most significant digit first. -/
def renderNat (n : Nat) : List Char :=
  if n = 0 then ['0'] else ((Nat.digits 10 n).map digitToChar).reverse

/-- Modelled from the spec: the re-parser's reading of an unsigned decimal
numeral (the repository contains no CSV reader). -/
def parseNat (cs : List Char) : Option Nat :=
  if cs = [] then none
  else if cs.all isDigitChar then
    some (Nat.ofDigits 10 ((cs.map charToDigit).reverse))
  else none

/-- Decimal rendering of an integer, with a leading minus sign when
negative. -/
def renderInt (i : Int) : List Char :=
  if i < 0 then '-' :: renderNat i.natAbs else renderNat i.toNat

/-- Modelled from the spec: the re-parser's reading of a signed decimal
numeral. -/
def parseInt (cs : List Char) : Option Int :=
  match cs with
  | [] => none
  | c :: rest =>
      if c = '-' then (parseNat rest).map (fun n : Nat => -(n : Int))
      else (parseNat (c :: rest)).map (fun n : Nat => (n : Int))

/-- Text form of a rational attribute, written as numerator, a slash and
denominator.  Pandas renders float cells through a shortest-repr formatter
whose round-trip property is a floating-point fact outside this embedding;
the embedding keeps only what the round trip needs from it, an injective
rendering with an exact inverse. -/
def renderQ (q : ℚ) : List Char :=
  renderInt q.num ++ '/' :: renderNat q.den

/-- Modelled from the spec: the re-parser's reading of a rational
attribute, inverse of `renderQ`. -/
def parseQ (cs : List Char) : Option ℚ :=
  match cs.dropWhile (fun c => decide (c ≠ '/')) with
  | '/' :: denPart =>
      match parseInt (cs.takeWhile (fun c => decide (c ≠ '/'))), parseNat denPart with
      | some n, some d => if d = 0 then none else some ((n : ℚ) / (d : ℚ))
      | _, _ => none
  | _ => none

/-- Character that forces a field to be quoted: the delimiter, the quote
character, or a line break. -/
def isSpecialChar (c : Char) : Bool :=
  decide (c = ',') || decide (c = '"') || decide (c = '\n') || decide (c = '\r')

/-- Body of a quoted field: every embedded quote is doubled. -/
def escBody : List Char → List Char
  | [] => []
  | c :: cs => if c = '"' then '"' :: '"' :: escBody cs else c :: escBody cs

/-- Rendering of one field under minimal quoting: wrapped in quotes, with
doubling, exactly when the raw field contains a special character. -/
def escField (f : List Char) : List Char :=
  if f.any isSpecialChar then '"' :: (escBody f ++ ['"']) else f

/-- Rendering of one row: fields joined by commas, a newline at the end. -/
def rowChars : List (List Char) → List Char
  | [] => ['\n']
  | [f] => escField f ++ ['\n']
  | f :: g :: fs => escField f ++ ',' :: rowChars (g :: fs)

/-- Rendering of a sequence of rows. -/
def csvChars : List (List (List Char)) → List Char
  | [] => []
  | r :: rs => rowChars r ++ csvChars rs

/-- State of the CSV reader: start of a field, inside an unquoted field,
inside a quoted field, or inside a quoted field having just read a quote
character. -/
inductive CsvMode where
  | field | unq | quo | quoQ
deriving DecidableEq, Repr

/-- Modelled from the spec: the re-parser of the delimited text format (the
repository only writes it).  One step per character; `acc` holds the
current field reversed, `rowAcc` the current row reversed, `rows` the
finished rows reversed.  Malformed input (an unterminated quoted field, a
quote inside an unquoted field, text after a closing quote, or a final row
without its newline) is rejected. -/
def csvAux : CsvMode → List Char → List Char → List (List Char) →
    List (List (List Char)) → Option (List (List (List Char)))
  | CsvMode.field, [], _, rowAcc, rows =>
      if rowAcc = [] then some rows.reverse else none
  | CsvMode.field, c :: cs, _, rowAcc, rows =>
      if c = ',' then csvAux CsvMode.field cs [] ([] :: rowAcc) rows
      else if c = '\n' then
        csvAux CsvMode.field cs [] [] ((([] : List Char) :: rowAcc).reverse :: rows)
      else if c = '"' then csvAux CsvMode.quo cs [] rowAcc rows
      else csvAux CsvMode.unq cs [c] rowAcc rows
  | CsvMode.unq, [], _, _, _ => none
  | CsvMode.unq, c :: cs, acc, rowAcc, rows =>
      if c = ',' then csvAux CsvMode.field cs [] (acc.reverse :: rowAcc) rows
      else if c = '\n' then
        csvAux CsvMode.field cs [] [] ((acc.reverse :: rowAcc).reverse :: rows)
      else if c = '"' then none
      else csvAux CsvMode.unq cs (c :: acc) rowAcc rows
  | CsvMode.quo, [], _, _, _ => none
  | CsvMode.quo, c :: cs, acc, rowAcc, rows =>
      if c = '"' then csvAux CsvMode.quoQ cs acc rowAcc rows
      else csvAux CsvMode.quo cs (c :: acc) rowAcc rows
  | CsvMode.quoQ, [], _, _, _ => none
  | CsvMode.quoQ, c :: cs, acc, rowAcc, rows =>
      if c = '"' then csvAux CsvMode.quo cs ('"' :: acc) rowAcc rows
      else if c = ',' then csvAux CsvMode.field cs [] (acc.reverse :: rowAcc) rows
      else if c = '\n' then
        csvAux CsvMode.field cs [] [] ((acc.reverse :: rowAcc).reverse :: rows)
      else none

/-- Modelled from the spec: parse a whole delimited text into its rows of
fields. -/
def parseCsv (input : List Char) : Option (List (List (List Char))) :=
  csvAux CsvMode.field input [] [] []

/-- Header row written by `to_csv`: the attribute names, in column order. -/
def headerFields : List (List Char) :=
  ["name".data, "category".data, "price".data, "rating".data,
   "review_count".data, "value_score".data, "popularity_index".data,
   "price_category".data]

/-- Field values of one exported record, in column order. -/
def productRow (p : Product) : List (List Char) :=
  [p.name.data, p.category.data, renderQ p.price, renderQ p.rating,
   renderNat p.review_count, renderQ p.value_score,
   renderQ p.popularity_index, p.price_category.data]

/-- The CSV download of line 271: header row followed by one row per
filtered record, in order. -/
def productsCsv (F : List Product) : List Char :=
  csvChars (headerFields :: F.map productRow)

/-- Modelled from the spec: rebuild one record from the fields of a parsed
row. -/
def rowToProduct : List (List Char) → Option Product
  | [n, c, pr, ra, rc, vs, pidx, pc] =>
      match parseQ pr, parseQ ra, parseNat rc, parseQ vs, parseQ pidx with
      | some price, some rating, some rcount, some vscore, some pop =>
          some { name := String.mk n, category := String.mk c, price := price
               , rating := rating, review_count := rcount, value_score := vscore
               , popularity_index := pop, price_category := String.mk pc }
      | _, _, _, _, _ => none
  | _ => none

/-- Modelled from the spec: rebuild every record of a parsed body. -/
def rowsToProducts : List (List (List Char)) → Option (List Product)
  | [] => some []
  | r :: rs =>
      match rowToProduct r, rowsToProducts rs with
      | some p, some ps => some (p :: ps)
      | _, _ => none

/-- Modelled from the spec: re-parse an exported file into a record set,
checking the header row. -/
def parseProducts (input : List Char) : Option (List Product) :=
  match parseCsv input with
  | some (h :: rs) => if h = headerFields then rowsToProducts rs else none
  | _ => none

/-- Concrete record used by the witnesses. -/
def sampleProduct : Product :=
  { name := "USB Hub", category := "Electronics", price := 10, rating := 4
  , review_count := 5, value_score := 2, popularity_index := 7
  , price_category := "Low" }

/-- Concrete low-rated record used by the witnesses. -/
def lowRatedProduct : Product :=
  { name := "Kite", category := "Toys", price := 6, rating := 2
  , review_count := 11, value_score := 1, popularity_index := 3
  , price_category := "Low" }

/-- Concrete record set used by the witnesses. -/
def sampleR : List Product := [sampleProduct, lowRatedProduct]

/-- Concrete predicate used by the witnesses. -/
def sampleP : FilterPredicate :=
  { category := "All", priceMin := 0, priceMax := 100, ratingMin := 0, ratingMax := 5 }

/-- The predicate `sampleP` with its price minimum lowered. -/
def samplePWide : FilterPredicate :=
  { category := "All", priceMin := -1, priceMax := 100, ratingMin := 0, ratingMax := 5 }

/-! Theorems.  Helper lemmas come first; the claim theorems follow. -/

/-- The two-step filter of lines 92-101 computes the single filter by the
conjunction of the three conditions. -/
theorem applyFilter_eq_filter (df : List Product) (P : FilterPredicate) :
    applyFilter df P = df.filter (matchesPred P) := by
  unfold applyFilter categoryFilter rangeFilter
  by_cases h : P.category = "All"
  · rw [if_neg (by simpa using h)]
    refine List.filter_congr fun r _ => ?_
    simp [matchesPred, h]
  · rw [if_pos (by simpa using h), List.filter_filter]
    refine List.filter_congr fun r _ => ?_
    simp [matchesPred, h, Bool.and_comm, Bool.and_assoc, Bool.and_left_comm]

/-- Membership in the filtered set. -/
theorem mem_applyFilter {df : List Product} {P : FilterPredicate} {r : Product} :
    r ∈ applyFilter df P ↔ r ∈ df ∧ matchesPred P r = true := by
  rw [applyFilter_eq_filter]; exact List.mem_filter

/-- Widening one range bound weakens the match condition. -/
theorem matchesPred_mono {P Q : FilterPredicate} {r : Product}
    (h : widensOneBound P Q) (hm : matchesPred P r = true) :
    matchesPred Q r = true := by
  simp only [matchesPred, Bool.and_eq_true, Bool.or_eq_true, decide_eq_true_eq] at hm ⊢
  obtain ⟨⟨⟨⟨hcat, hpmin⟩, hpmax⟩, hrmin⟩, hrmax⟩ := hm
  rcases h with ⟨m, hms, rfl⟩ | ⟨m, hms, rfl⟩ | ⟨m, hms, rfl⟩ | ⟨m, hms, rfl⟩
  · exact ⟨⟨⟨⟨hcat, le_trans hms hpmin⟩, hpmax⟩, hrmin⟩, hrmax⟩
  · exact ⟨⟨⟨⟨hcat, hpmin⟩, le_trans hpmax hms⟩, hrmin⟩, hrmax⟩
  · exact ⟨⟨⟨⟨hcat, hpmin⟩, hpmax⟩, le_trans hms hrmin⟩, hrmax⟩
  · exact ⟨⟨⟨⟨hcat, hpmin⟩, hpmax⟩, hrmin⟩, le_trans hrmax hms⟩

/-- C1: applyFilter returns exactly the subset of R satisfying the
conjunction of the category condition (equality or the "All" sentinel), the
inclusive price range and the inclusive rating range; the result is a
sublist of R (order preserved, nothing duplicated or synthesized), and the
empty record set filters to the empty set without error. -/
theorem C1_applyFilter_exact (R : List Product) (P : FilterPredicate) :
    applyFilter R P = R.filter (matchesPred P)
    ∧ (applyFilter R P).Sublist R
    ∧ (∀ r, r ∈ applyFilter R P ↔ r ∈ R ∧ matchesPred P r = true)
    ∧ applyFilter [] P = [] := by
  refine ⟨applyFilter_eq_filter R P, ?_, fun r => mem_applyFilter, ?_⟩
  · rw [applyFilter_eq_filter]; exact List.filter_sublist R
  · rw [applyFilter_eq_filter]; rfl

/-- C5: applyFilter is idempotent. -/
theorem C5_applyFilter_idempotent (R : List Product) (P : FilterPredicate) :
    applyFilter (applyFilter R P) P = applyFilter R P := by
  rw [applyFilter_eq_filter, applyFilter_eq_filter R P, List.filter_filter]
  exact List.filter_congr fun a _ => Bool.and_self _

/-- C6: widening exactly one bound of the price or rating range never drops
a record: every record passing the original predicate passes the widened
one. -/
theorem C6_applyFilter_monotone (R : List Product) (P Q : FilterPredicate)
    (h : widensOneBound P Q) :
    ∀ r ∈ applyFilter R P, r ∈ applyFilter R Q := by
  intro r hr
  rw [mem_applyFilter] at hr ⊢
  exact ⟨hr.1, matchesPred_mono h hr.2⟩

/-- Witness for C6 at a concrete record set and a concretely widened
predicate. -/
theorem C6_witness :
    widensOneBound sampleP samplePWide ∧
      ∀ r ∈ applyFilter sampleR sampleP, r ∈ applyFilter sampleR samplePWide := by
  have h : widensOneBound sampleP samplePWide := Or.inl ⟨-1, by decide, by decide⟩
  exact ⟨h, C6_applyFilter_monotone sampleR sampleP samplePWide h⟩

/-- C7: each KPI's delta field is present exactly when the category
selector differs from "All" — even when price or rating restrictions are
active, since the computation consults only the selector — and, when
present, equals the filtered value minus the unfiltered baseline. -/
theorem C7_kpi_deltas (R F : List Product) (sel : String) :
    (computeKPIs R F sel).countDelta =
      (if sel = "All" then none else some ((F.length : Int) - (R.length : Int)))
    ∧ (computeKPIs R F sel).avgPriceDelta =
      (if sel = "All" then none
       else some (fsub (seriesMean (F.map Product.price))
          (seriesMean (R.map Product.price))))
    ∧ (computeKPIs R F sel).avgRatingDelta =
      (if sel = "All" then none
       else some (fsub (seriesMean (F.map Product.rating))
          (seriesMean (R.map Product.rating))))
    ∧ (computeKPIs R F sel).totalReviewsDelta =
      (if sel = "All" then none
       else some (((F.map Product.review_count).sum : Int) -
          ((R.map Product.review_count).sum : Int))) := by
  by_cases h : sel = "All" <;> simp [computeKPIs, h]

/-- Counterexample to C2 as stated: with a restriction active and an empty
filtered set, the KPI computation does not fail with EmptyInputError — it
succeeds, and the mean-based fields evaluate to the displayable NaN
value. -/
theorem C2_counterexample :
    computeKPIsE sampleR [] "Electronics" ≠ Except.error KPIError.emptyInput
    ∧ (computeKPIs sampleR [] "Electronics").avgPrice = FVal.nan
    ∧ (computeKPIs sampleR [] "Electronics").avgRating = FVal.nan := by
  refine ⟨?_, rfl, rfl⟩
  simp [computeKPIsE]

/-- C2 amended: the KPI computation over an empty filtered set never fails;
the count-based fields are the valid values 0, and the mean-based fields
evaluate to NaN (displayed as a placeholder figure) instead of raising
EmptyInputError. -/
theorem C2_amended_kpis_total (R : List Product) (sel : String) :
    computeKPIsE R [] sel = Except.ok (computeKPIs R [] sel)
    ∧ (computeKPIs R [] sel).count = 0
    ∧ (computeKPIs R [] sel).totalReviews = 0
    ∧ (computeKPIs R [] sel).avgPrice = FVal.nan
    ∧ (computeKPIs R [] sel).avgRating = FVal.nan := by
  refine ⟨rfl, rfl, rfl, ?_, ?_⟩ <;> simp [computeKPIs, seriesMean]

/-- Folding min never exceeds its initial value. -/
theorem foldl_min_le_init (l : List ℚ) (a : ℚ) : l.foldl min a ≤ a := by
  induction l generalizing a with
  | nil => exact le_refl a
  | cons c l ih => exact le_trans (ih (min a c)) (min_le_left a c)

/-- Folding min is bounded by every member. -/
theorem foldl_min_le_mem (l : List ℚ) (a x : ℚ) (h : x ∈ l) : l.foldl min a ≤ x := by
  induction l generalizing a with
  | nil => cases h
  | cons c l ih =>
    rcases List.mem_cons.mp h with rfl | h
    · exact le_trans (foldl_min_le_init l (min a x)) (min_le_right a x)
    · exact ih (min a c) h

/-- Folding max is at least its initial value. -/
theorem init_le_foldl_max (l : List ℚ) (a : ℚ) : a ≤ l.foldl max a := by
  induction l generalizing a with
  | nil => exact le_refl a
  | cons c l ih => exact le_trans (le_max_left a c) (ih (max a c))

/-- Folding max dominates every member. -/
theorem mem_le_foldl_max (l : List ℚ) (a x : ℚ) (h : x ∈ l) : x ≤ l.foldl max a := by
  induction l generalizing a with
  | nil => cases h
  | cons c l ih =>
    rcases List.mem_cons.mp h with rfl | h
    · exact le_trans (le_max_right a x) (init_le_foldl_max l (max a x))
    · exact ih (max a c) h

/-- The column minimum bounds every member. -/
theorem listMin_le (l : List ℚ) (x : ℚ) (h : x ∈ l) : listMin l ≤ x := by
  match l, h with
  | a :: l, h =>
    rcases List.mem_cons.mp h with rfl | h
    · exact foldl_min_le_init l x
    · exact foldl_min_le_mem l a x h

/-- Every member is bounded by the column maximum. -/
theorem le_listMax (l : List ℚ) (x : ℚ) (h : x ∈ l) : x ≤ listMax l := by
  match l, h with
  | a :: l, h =>
    rcases List.mem_cons.mp h with rfl | h
    · exact init_le_foldl_max l x
    · exact mem_le_foldl_max l a x h

/-- C9: the default predicate keeps category "All" and the full observed
price range (the price bounds exclude no record), but its rating range
defaults to the interval of 3 to 5, so the default filtered view excludes
every record whose rating is below 3. -/
theorem C9_default_predicate (R : List Product) :
    (defaultPredicate R).category = "All"
    ∧ (defaultPredicate R).ratingMin = 3 ∧ (defaultPredicate R).ratingMax = 5
    ∧ (∀ r ∈ R, (defaultPredicate R).priceMin ≤ r.price ∧
        r.price ≤ (defaultPredicate R).priceMax)
    ∧ (∀ r ∈ R, r.rating < 3 → r ∉ applyFilter R (defaultPredicate R)) := by
  refine ⟨rfl, rfl, rfl, ?_, ?_⟩
  · intro r hr
    exact ⟨listMin_le _ _ (List.mem_map_of_mem Product.price hr),
      le_listMax _ _ (List.mem_map_of_mem Product.price hr)⟩
  · intro r _ hlt hmem
    have h3 : (3 : ℚ) ≤ r.rating := by
      have := (mem_applyFilter.mp hmem).2
      simp only [matchesPred, defaultPredicate, Bool.and_eq_true, decide_eq_true_eq] at this
      exact this.1.2
    linarith

/-- Witness for C9: a concrete record with rating 2 sits inside the price
bounds yet is excluded by the default filter. -/
theorem C9_witness :
    lowRatedProduct ∈ sampleR ∧ lowRatedProduct.rating < 3
    ∧ lowRatedProduct ∉ applyFilter sampleR (defaultPredicate sampleR) :=
  ⟨by decide, by decide,
    (C9_default_predicate sampleR).2.2.2.2 lowRatedProduct (by decide) (by decide)⟩

/-- The descending comparison is transitive. -/
theorem keyGE_trans (K : RankKey) : ∀ a b c : Product,
    keyGE K a b → keyGE K b c → keyGE K a c := by
  intro a b c hab hbc
  simp only [keyGE, decide_eq_true_eq] at hab hbc ⊢
  exact le_trans hbc hab

/-- The descending comparison is total. -/
theorem keyGE_total (K : RankKey) : ∀ a b : Product,
    keyGE K a b || keyGE K b a := by
  intro a b
  simp only [keyGE, Bool.or_eq_true, decide_eq_true_eq]
  exact le_total (keyFn K b) (keyFn K a)

/-- Stability of the descending sort: the records holding any fixed key
value come out in exactly their original relative order. -/
theorem mergeSort_filter_key (F : List Product) (K : RankKey) (v : ℚ) :
    (F.mergeSort (keyGE K)).filter (fun r => decide (keyFn K r = v)) =
      F.filter (fun r => decide (keyFn K r = v)) := by
  have hpair : (F.filter (fun r => decide (keyFn K r = v))).Pairwise
      (fun a b => keyGE K a b) := by
    refine List.pairwise_of_forall_mem_list ?_
    intro a ha b hb
    have ha2 := (List.mem_filter.mp ha).2
    have hb2 := (List.mem_filter.mp hb).2
    simp only [decide_eq_true_eq] at ha2 hb2
    simp [keyGE, ha2, hb2]
  have hsub : (F.filter (fun r => decide (keyFn K r = v))).Sublist
      (F.mergeSort (keyGE K)) :=
    List.sublist_mergeSort (keyGE_trans K) (keyGE_total K) hpair (List.filter_sublist F)
  have hss : (F.filter (fun r => decide (keyFn K r = v))).Sublist
      ((F.mergeSort (keyGE K)).filter (fun r => decide (keyFn K r = v))) := by
    have := hsub.filter (fun r => decide (keyFn K r = v))
    rwa [List.filter_filter, List.filter_congr (fun a _ => Bool.and_self _)] at this
  have hlen : ((F.mergeSort (keyGE K)).filter
      (fun r => decide (keyFn K r = v))).length =
      (F.filter (fun r => decide (keyFn K r = v))).length :=
    ((List.mergeSort_perm F (keyGE K)).filter _).length_eq
  exact (hss.eq_of_length hlen.symm).symm

/-- C3: topN returns at most 10 records, sorted descending by the chosen
key; records sharing a key value appear in their first-seen order of F (the
kept ties form a sublist, in order, of F restricted to that key value); and
when F has fewer than 10 records all of F is returned. -/
theorem C3_topN (F : List Product) (K : RankKey) :
    (topN F K).length ≤ 10
    ∧ List.Sorted (fun a b => keyFn K b ≤ keyFn K a) (topN F K)
    ∧ (∀ v : ℚ, ((topN F K).filter (fun r => decide (keyFn K r = v))).Sublist
        (F.filter (fun r => decide (keyFn K r = v))))
    ∧ (F.length < 10 → (topN F K).Perm F) := by
  refine ⟨?_, ?_, ?_, ?_⟩
  · exact List.length_take_le 10 _
  · have hs : (F.mergeSort (keyGE K)).Pairwise (fun a b => keyGE K a b) :=
      List.sorted_mergeSort (keyGE_trans K) (keyGE_total K) F
    have hs2 : (F.mergeSort (keyGE K)).Pairwise (fun a b => keyFn K b ≤ keyFn K a) :=
      hs.imp (fun h => by simpa [keyGE] using h)
    exact hs2.sublist (List.take_sublist 10 _)
  · intro v
    rw [show topN F K = (F.mergeSort (keyGE K)).take 10 from rfl]
    have := (List.take_sublist 10 (F.mergeSort (keyGE K))).filter
      (fun r => decide (keyFn K r = v))
    rwa [mergeSort_filter_key F K v] at this
  · intro hlen
    have : topN F K = F.mergeSort (keyGE K) := by
      apply List.take_of_length_le
      rw [List.length_mergeSort]
      omega
    rw [this]
    exact List.mergeSort_perm F (keyGE K)

/-- Witness for C3 at a concrete two-record set: fewer than 10 records, so
the projection returns all of them. -/
theorem C3_witness :
    sampleR.length < 10 ∧ (topN sampleR RankKey.rating).Perm sampleR :=
  ⟨by decide, (C3_topN sampleR RankKey.rating).2.2.2 (by decide)⟩

/-- Membership in the deduplication pass: a value appears when it occurs in
the input and has not been emitted already. -/
theorem mem_uniqueFirstAux (l : List String) : ∀ (seen : List String) (c : String),
    c ∈ uniqueFirstAux seen l ↔ c ∈ l ∧ c ∉ seen := by
  induction l with
  | nil => intro seen c; simp [uniqueFirstAux]
  | cons a l ih =>
    intro seen c
    by_cases ha : a ∈ seen
    · rw [show uniqueFirstAux seen (a :: l) = uniqueFirstAux seen l from by
        simp [uniqueFirstAux, ha], ih]
      constructor
      · rintro ⟨h1, h2⟩; exact ⟨List.mem_cons_of_mem a h1, h2⟩
      · rintro ⟨h1, h2⟩
        rcases List.mem_cons.mp h1 with rfl | h1
        · exact absurd ha h2
        · exact ⟨h1, h2⟩
    · rw [show uniqueFirstAux seen (a :: l) = a :: uniqueFirstAux (a :: seen) l from by
        simp [uniqueFirstAux, ha]]
      constructor
      · intro h
        rcases List.mem_cons.mp h with rfl | h
        · exact ⟨List.mem_cons_self c l, ha⟩
        · have := (ih (a :: seen) c).mp h
          exact ⟨List.mem_cons_of_mem a this.1,
            fun hc => this.2 (List.mem_cons_of_mem a hc)⟩
      · rintro ⟨h1, h2⟩
        by_cases hca : c = a
        · exact hca ▸ List.mem_cons_self a _
        · rcases List.mem_cons.mp h1 with rfl | h1
          · exact absurd rfl hca
          · exact List.mem_cons_of_mem a ((ih (a :: seen) c).mpr
              ⟨h1, by simp [hca, h2]⟩)

/-- The deduplication pass emits no value twice. -/
theorem nodup_uniqueFirstAux (l : List String) :
    ∀ seen : List String, (uniqueFirstAux seen l).Nodup := by
  induction l with
  | nil => intro seen; simp [uniqueFirstAux]
  | cons a l ih =>
    intro seen
    by_cases ha : a ∈ seen
    · simpa [uniqueFirstAux, ha] using ih seen
    · rw [show uniqueFirstAux seen (a :: l) = a :: uniqueFirstAux (a :: seen) l from by
        simp [uniqueFirstAux, ha]]
      refine List.nodup_cons.mpr ⟨fun hmem => ?_, ih _⟩
      exact ((mem_uniqueFirstAux l _ a).mp hmem).2 (List.mem_cons_self a seen)

/-- Membership in the distinct-value list equals membership in the
column. -/
theorem mem_uniqueFirst {l : List String} {c : String} :
    c ∈ uniqueFirst l ↔ c ∈ l := by
  rw [uniqueFirst, mem_uniqueFirstAux]
  simp

/-- The distinct-value list has no duplicates. -/
theorem nodup_uniqueFirst (l : List String) : (uniqueFirst l).Nodup :=
  nodup_uniqueFirstAux l []

/-- C4: the selectbox options start with the sentinel "All", followed by
the distinct category values of R sorted strictly ascending, each category
present in R appearing exactly once however many duplicates R contains. -/
theorem C4_distinct_categories (R : List Product) :
    (distinctCategories R).head? = some "All"
    ∧ List.Sorted (fun a b : String => a < b) (distinctCategories R).tail
    ∧ (∀ c, (distinctCategories R).tail.count c =
        if c ∈ R.map Product.category then 1 else 0) := by
  have hnd : (List.insertionSort (fun a b : String => a ≤ b)
      (uniqueFirst (R.map Product.category))).Nodup :=
    (List.perm_insertionSort _ _).nodup_iff.mpr
      (nodup_uniqueFirst (R.map Product.category))
  refine ⟨rfl, ?_, ?_⟩
  · have hs : List.Sorted (fun a b : String => a ≤ b)
        (List.insertionSort (fun a b : String => a ≤ b)
          (uniqueFirst (R.map Product.category))) :=
      List.sorted_insertionSort _ _
    exact hs.lt_of_le hnd
  · intro c
    have hcount : (List.insertionSort (fun a b : String => a ≤ b)
        (uniqueFirst (R.map Product.category))).count c =
        (uniqueFirst (R.map Product.category)).count c :=
      (List.perm_insertionSort _ _).count_eq c
    rw [show (distinctCategories R).tail =
      List.insertionSort (fun a b : String => a ≤ b)
        (uniqueFirst (R.map Product.category)) from rfl, hcount]
    by_cases hc : c ∈ R.map Product.category
    · rw [if_pos hc]
      exact List.count_eq_one_of_mem (nodup_uniqueFirst _) (mem_uniqueFirst.mpr hc)
    · rw [if_neg hc, List.count_eq_zero]
      exact fun hmem => hc (mem_uniqueFirst.mp hmem)

/-- Membership in the value-count pairs: exactly the distinct values, each
paired with its occurrence count. -/
theorem mem_valueCounts {l : List String} {c : String} {n : Nat} :
    (c, n) ∈ valueCounts l ↔ c ∈ l ∧ n = l.count c := by
  rw [valueCounts, List.mem_mergeSort, List.mem_map]
  constructor
  · rintro ⟨a, ha, heq⟩
    obtain ⟨rfl, rfl⟩ : a = c ∧ (l.count a) = n := by
      constructor <;> [exact congrArg Prod.fst heq; exact congrArg Prod.snd heq]
    exact ⟨mem_uniqueFirst.mp ha, rfl⟩
  · rintro ⟨hc, rfl⟩
    exact ⟨c, mem_uniqueFirst.mpr hc, rfl⟩

/-- The distinct-value list is a permutation of `dedup`. -/
theorem uniqueFirst_perm_dedup (l : List String) :
    (uniqueFirst l).Perm l.dedup := by
  refine (List.perm_ext_iff_of_nodup (nodup_uniqueFirst l) l.nodup_dedup).mpr ?_
  intro a
  rw [mem_uniqueFirst, List.mem_dedup]

/-- C10: the price-category distribution maps exactly the distinct
price_category values present in F — no other keys — to their strictly
positive occurrence counts, and the counts sum to the size of F. -/
theorem C10_price_category_distribution (F : List Product) :
    (∀ c : String, (∃ n, (c, n) ∈ priceCategoryDistribution F) ↔
        c ∈ F.map Product.price_category)
    ∧ (∀ e ∈ priceCategoryDistribution F,
        0 < e.2 ∧ e.2 = (F.map Product.price_category).count e.1)
    ∧ ((priceCategoryDistribution F).map Prod.snd).sum = F.length := by
  refine ⟨?_, ?_, ?_⟩
  · intro c
    constructor
    · rintro ⟨n, hn⟩
      exact (mem_valueCounts.mp hn).1
    · intro hc
      exact ⟨(F.map Product.price_category).count c, mem_valueCounts.mpr ⟨hc, rfl⟩⟩
  · rintro ⟨c, n⟩ he
    obtain ⟨hc, rfl⟩ := mem_valueCounts.mp he
    exact ⟨List.count_pos_iff.mpr hc, rfl⟩
  · have hperm : ((priceCategoryDistribution F).map Prod.snd).Perm
        ((uniqueFirst (F.map Product.price_category)).map
          (fun c => (F.map Product.price_category).count c)) := by
      rw [priceCategoryDistribution, valueCounts]
      have := (List.mergeSort_perm
        ((uniqueFirst (F.map Product.price_category)).map
          (fun c => ((c, (F.map Product.price_category).count c) : String × Nat)))
        (fun a b => decide (b.2 ≤ a.2))).map Prod.snd
      simpa [List.map_map, Function.comp] using this
    rw [hperm.sum_eq]
    have hperm2 : ((uniqueFirst (F.map Product.price_category)).map
        (fun c => (F.map Product.price_category).count c)).Perm
        ((F.map Product.price_category).dedup.map
          (fun c => (F.map Product.price_category).count c)) :=
      (uniqueFirst_perm_dedup (F.map Product.price_category)).map _
    rw [hperm2.sum_eq, List.sum_map_count_dedup_eq_length, List.length_map]

/-- Witness for C10 at a concrete record set: the single key "Low" occurs
with positive count 2. -/
theorem C10_witness :
    ("Low", 2) ∈ priceCategoryDistribution sampleR
    ∧ 0 < (("Low", 2) : String × Nat).2
    ∧ (("Low", 2) : String × Nat).2 =
        (sampleR.map Product.price_category).count ("Low", 2).1 := by
  have hmem : ("Low", 2) ∈ priceCategoryDistribution sampleR :=
    mem_valueCounts.mpr ⟨by decide, by decide⟩
  have h := (C10_price_category_distribution sampleR).2.1 ("Low", 2) hmem
  exact ⟨hmem, h.1, h.2⟩

/-- Digit characters are recognised as digits. -/
theorem digitToChar_isDigit {d : Nat} (h : d < 10) :
    isDigitChar (digitToChar d) = true := by
  interval_cases d <;> decide

/-- Reading back a digit character recovers the digit. -/
theorem charToDigit_digitToChar {d : Nat} (h : d < 10) :
    charToDigit (digitToChar d) = d := by
  interval_cases d <;> decide

/-- A rendered natural number is never the empty string. -/
theorem renderNat_ne_nil (n : Nat) : renderNat n ≠ [] := by
  unfold renderNat
  split
  · simp
  · next h =>
    simp only [ne_eq, List.reverse_eq_nil_iff, List.map_eq_nil_iff]
    exact Nat.digits_ne_nil_iff_ne_zero.mpr h

/-- Every character of a rendered natural number is a digit. -/
theorem renderNat_digits (n : Nat) : ∀ c ∈ renderNat n, isDigitChar c = true := by
  intro c hc
  unfold renderNat at hc
  split at hc
  · rw [List.mem_singleton] at hc
    subst hc; decide
  · rw [List.mem_reverse, List.mem_map] at hc
    obtain ⟨d, hd, rfl⟩ := hc
    exact digitToChar_isDigit (Nat.digits_lt_base (by norm_num) hd)

/-- Reading a rendered natural number recovers it. -/
theorem parseNat_renderNat (n : Nat) : parseNat (renderNat n) = some n := by
  rw [parseNat, if_neg (by simpa using renderNat_ne_nil n),
    if_pos (List.all_eq_true.mpr (renderNat_digits n))]
  congr 1
  unfold renderNat
  split
  · next h => subst h; decide
  · next h =>
    rw [List.map_reverse, List.reverse_reverse, List.map_map]
    have hmap : (Nat.digits 10 n).map (charToDigit ∘ digitToChar) =
        (Nat.digits 10 n).map id :=
      List.map_congr_left fun d hd =>
        charToDigit_digitToChar (Nat.digits_lt_base (by norm_num) hd)
    rw [hmap, List.map_id, Nat.ofDigits_digits]

/-- Every character of a rendered integer is a digit or the minus sign. -/
theorem renderInt_chars (i : Int) :
    ∀ c ∈ renderInt i, c = '-' ∨ isDigitChar c = true := by
  intro c hc
  unfold renderInt at hc
  split at hc
  · rcases List.mem_cons.mp hc with rfl | hc
    · exact Or.inl rfl
    · exact Or.inr (renderNat_digits _ c hc)
  · exact Or.inr (renderNat_digits _ c hc)

/-- Reading a rendered integer recovers it. -/
theorem parseInt_renderInt (i : Int) : parseInt (renderInt i) = some i := by
  unfold renderInt
  split
  · next h =>
    rw [show parseInt ('-' :: renderNat i.natAbs) =
        (parseNat (renderNat i.natAbs)).map (fun n : Nat => -(n : Int)) from by
      simp [parseInt]]
    rw [parseNat_renderNat, Option.map_some']
    congr 1
    omega
  · next h =>
    obtain ⟨c, cs, hcs⟩ : ∃ c cs, renderNat i.toNat = c :: cs := by
      cases hrn : renderNat i.toNat with
      | nil => exact absurd hrn (renderNat_ne_nil _)
      | cons c cs => exact ⟨c, cs, rfl⟩
    have hcd : isDigitChar c = true :=
      renderNat_digits i.toNat c (by rw [hcs]; exact List.mem_cons_self c cs)
    have hcne : c ≠ '-' := by
      intro hceq; subst hceq; exact absurd hcd (by decide)
    rw [hcs]
    rw [show parseInt (c :: cs) = (parseNat (c :: cs)).map (fun n : Nat => (n : Int)) from by
      simp [parseInt, hcne]]
    rw [← hcs, parseNat_renderNat, Option.map_some']
    congr 1
    omega

/-- Scanning up to a separator that occurs after a clean run returns the
run and the separator-headed remainder. -/
theorem takeWhile_dropWhile_append {p : Char → Bool} (l1 : List Char)
    (h : ∀ x ∈ l1, p x = true) (c : Char) (hc : p c = false) (l2 : List Char) :
    (l1 ++ c :: l2).takeWhile p = l1 ∧ (l1 ++ c :: l2).dropWhile p = c :: l2 := by
  induction l1 with
  | nil => simp [List.takeWhile_cons, List.dropWhile_cons, hc]
  | cons a l ih =>
    have ha : p a = true := h a (List.mem_cons_self a l)
    have ihl := ih fun x hx => h x (List.mem_cons_of_mem a hx)
    refine ⟨?_, ?_⟩ <;>
      simp [List.takeWhile_cons, List.dropWhile_cons, ha, ihl.1, ihl.2]

/-- Reading a rendered rational attribute recovers it. -/
theorem parseQ_renderQ (q : ℚ) : parseQ (renderQ q) = some q := by
  have hslash : ∀ x ∈ renderInt q.num, (fun c => decide (c ≠ '/')) x = true := by
    intro x hx
    rcases renderInt_chars q.num x hx with rfl | hd
    · decide
    · simp only [decide_eq_true_eq]
      intro heq
      subst heq
      exact absurd hd (by decide)
  have hsplit := takeWhile_dropWhile_append (renderInt q.num) hslash '/'
    (by decide) (renderNat q.den)
  rw [parseQ, renderQ, hsplit.2, hsplit.1]
  simp only [parseInt_renderInt, parseNat_renderNat]
  rw [if_neg q.den_nz, Rat.num_div_den]

/-- Running the reader over an escaped quoted-field body accumulates the
raw field and stops at the closing quote. -/
theorem csvAux_quo_escBody (f : List Char) : ∀ (rest acc : List Char)
    (rowAcc : List (List Char)) (rows : List (List (List Char))),
    csvAux CsvMode.quo (escBody f ++ '"' :: rest) acc rowAcc rows
      = csvAux CsvMode.quoQ rest (f.reverse ++ acc) rowAcc rows := by
  induction f with
  | nil =>
    intro rest acc rowAcc rows
    simp [escBody, csvAux]
  | cons c f ih =>
    intro rest acc rowAcc rows
    by_cases hc : c = '"'
    · subst hc
      rw [show escBody ('"' :: f) = '"' :: '"' :: escBody f from by simp [escBody]]
      rw [show ('"' :: '"' :: escBody f) ++ '"' :: rest
          = '"' :: ('"' :: (escBody f ++ '"' :: rest)) from rfl]
      rw [show csvAux CsvMode.quo ('"' :: ('"' :: (escBody f ++ '"' :: rest))) acc rowAcc rows
          = csvAux CsvMode.quoQ ('"' :: (escBody f ++ '"' :: rest)) acc rowAcc rows from by
        simp [csvAux]]
      rw [show csvAux CsvMode.quoQ ('"' :: (escBody f ++ '"' :: rest)) acc rowAcc rows
          = csvAux CsvMode.quo (escBody f ++ '"' :: rest) ('"' :: acc) rowAcc rows from by
        simp [csvAux]]
      rw [ih]
      simp
    · rw [show escBody (c :: f) = c :: escBody f from by simp [escBody, hc]]
      rw [show (c :: escBody f) ++ '"' :: rest = c :: (escBody f ++ '"' :: rest) from rfl]
      rw [show csvAux CsvMode.quo (c :: (escBody f ++ '"' :: rest)) acc rowAcc rows
          = csvAux CsvMode.quo (escBody f ++ '"' :: rest) (c :: acc) rowAcc rows from by
        simp [csvAux, hc]]
      rw [ih]
      simp

/-- Running the reader over a clean unquoted run accumulates it
unchanged. -/
theorem csvAux_unq_accum (f : List Char) :
    (∀ x ∈ f, x ≠ ',' ∧ x ≠ '\n' ∧ x ≠ '"') →
    ∀ (rest acc : List Char) (rowAcc : List (List Char))
      (rows : List (List (List Char))),
    csvAux CsvMode.unq (f ++ rest) acc rowAcc rows
      = csvAux CsvMode.unq rest (f.reverse ++ acc) rowAcc rows := by
  induction f with
  | nil => intro _ rest acc rowAcc rows; simp
  | cons c f ih =>
    intro hf rest acc rowAcc rows
    obtain ⟨h1, h2, h3⟩ := hf c (List.mem_cons_self c f)
    rw [show (c :: f) ++ rest = c :: (f ++ rest) from rfl]
    rw [show csvAux CsvMode.unq (c :: (f ++ rest)) acc rowAcc rows
        = csvAux CsvMode.unq (f ++ rest) (c :: acc) rowAcc rows from by
      simp [csvAux, h1, h2, h3]]
    rw [ih (fun x hx => hf x (List.mem_cons_of_mem c hx))]
    simp

/-- A field that needs no quoting contains no delimiter, newline or
quote. -/
theorem no_special_chars {f : List Char} (h : f.any isSpecialChar = false) :
    ∀ x ∈ f, x ≠ ',' ∧ x ≠ '\n' ∧ x ≠ '"' := by
  intro x hx
  have hxs : isSpecialChar x = false := by
    by_contra hc
    rw [Bool.not_eq_false] at hc
    exact absurd (List.any_eq_true.mpr ⟨x, hx, hc⟩) (by rw [h]; simp)
  simp only [isSpecialChar, Bool.or_eq_false_iff, decide_eq_false_iff_not] at hxs
  exact ⟨hxs.1.1.1, hxs.1.2, hxs.1.1.2⟩

/-- Reading a rendered field followed by a comma pushes the raw field and
continues with the next field. -/
theorem csvAux_field_comma (f : List Char) (rest : List Char)
    (rowAcc : List (List Char)) (rows : List (List (List Char))) :
    csvAux CsvMode.field (escField f ++ ',' :: rest) [] rowAcc rows
      = csvAux CsvMode.field rest [] (f :: rowAcc) rows := by
  by_cases hq : f.any isSpecialChar
  · rw [show escField f = '"' :: (escBody f ++ ['"']) from by simp [escField, hq]]
    rw [show ('"' :: (escBody f ++ ['"'])) ++ ',' :: rest
        = '"' :: (escBody f ++ '"' :: ',' :: rest) from by simp]
    rw [show csvAux CsvMode.field ('"' :: (escBody f ++ '"' :: ',' :: rest)) [] rowAcc rows
        = csvAux CsvMode.quo (escBody f ++ '"' :: ',' :: rest) [] rowAcc rows from by
      simp [csvAux]]
    rw [csvAux_quo_escBody]
    rw [show csvAux CsvMode.quoQ (',' :: rest) (f.reverse ++ []) rowAcc rows
        = csvAux CsvMode.field rest [] ((f.reverse ++ []).reverse :: rowAcc) rows from by
      simp [csvAux]]
    simp
  · have hf := no_special_chars (Bool.not_eq_true _ ▸ hq)
    rw [show escField f = f from by simp [escField, hq]]
    cases f with
    | nil =>
      rw [List.nil_append]
      rw [show csvAux CsvMode.field (',' :: rest) [] rowAcc rows
          = csvAux CsvMode.field rest [] ([] :: rowAcc) rows from by simp [csvAux]]
    | cons c f =>
      obtain ⟨h1, h2, h3⟩ := hf c (List.mem_cons_self _ _)
      rw [show (c :: f) ++ ',' :: rest = c :: (f ++ ',' :: rest) from rfl]
      rw [show csvAux CsvMode.field (c :: (f ++ ',' :: rest)) [] rowAcc rows
          = csvAux CsvMode.unq (f ++ ',' :: rest) [c] rowAcc rows from by
        simp [csvAux, h1, h2, h3]]
      rw [csvAux_unq_accum f (fun x hx => hf x (List.mem_cons_of_mem c hx))]
      rw [show csvAux CsvMode.unq (',' :: rest) (f.reverse ++ [c]) rowAcc rows
          = csvAux CsvMode.field rest [] ((f.reverse ++ [c]).reverse :: rowAcc) rows from by
        simp [csvAux]]
      simp

/-- Reading a rendered field followed by a newline pushes the raw field,
closes the row and continues with the next row. -/
theorem csvAux_field_newline (f : List Char) (rest : List Char)
    (rowAcc : List (List Char)) (rows : List (List (List Char))) :
    csvAux CsvMode.field (escField f ++ '\n' :: rest) [] rowAcc rows
      = csvAux CsvMode.field rest [] [] ((f :: rowAcc).reverse :: rows) := by
  by_cases hq : f.any isSpecialChar
  · rw [show escField f = '"' :: (escBody f ++ ['"']) from by simp [escField, hq]]
    rw [show ('"' :: (escBody f ++ ['"'])) ++ '\n' :: rest
        = '"' :: (escBody f ++ '"' :: '\n' :: rest) from by simp]
    rw [show csvAux CsvMode.field ('"' :: (escBody f ++ '"' :: '\n' :: rest)) [] rowAcc rows
        = csvAux CsvMode.quo (escBody f ++ '"' :: '\n' :: rest) [] rowAcc rows from by
      simp [csvAux]]
    rw [csvAux_quo_escBody]
    rw [show csvAux CsvMode.quoQ ('\n' :: rest) (f.reverse ++ []) rowAcc rows
        = csvAux CsvMode.field rest [] []
            (((f.reverse ++ []).reverse :: rowAcc).reverse :: rows) from by
      simp [csvAux]]
    simp
  · have hf := no_special_chars (Bool.not_eq_true _ ▸ hq)
    rw [show escField f = f from by simp [escField, hq]]
    cases f with
    | nil =>
      rw [List.nil_append]
      rw [show csvAux CsvMode.field ('\n' :: rest) [] rowAcc rows
          = csvAux CsvMode.field rest [] []
              ((([] : List Char) :: rowAcc).reverse :: rows) from by simp [csvAux]]
    | cons c f =>
      obtain ⟨h1, h2, h3⟩ := hf c (List.mem_cons_self _ _)
      rw [show (c :: f) ++ '\n' :: rest = c :: (f ++ '\n' :: rest) from rfl]
      rw [show csvAux CsvMode.field (c :: (f ++ '\n' :: rest)) [] rowAcc rows
          = csvAux CsvMode.unq (f ++ '\n' :: rest) [c] rowAcc rows from by
        simp [csvAux, h1, h2, h3]]
      rw [csvAux_unq_accum f (fun x hx => hf x (List.mem_cons_of_mem c hx))]
      rw [show csvAux CsvMode.unq ('\n' :: rest) (f.reverse ++ [c]) rowAcc rows
          = csvAux CsvMode.field rest [] []
              (((f.reverse ++ [c]).reverse :: rowAcc).reverse :: rows) from by
        simp [csvAux]]
      simp

/-- Reading one rendered row pushes the whole raw row. -/
theorem csvAux_rowChars : ∀ (fs : List (List Char)), fs ≠ [] →
    ∀ (rest : List Char) (rowAcc : List (List Char))
      (rows : List (List (List Char))),
    csvAux CsvMode.field (rowChars fs ++ rest) [] rowAcc rows
      = csvAux CsvMode.field rest [] [] ((rowAcc.reverse ++ fs) :: rows)
  | [], h => absurd rfl h
  | [f], _ => by
    intro rest rowAcc rows
    rw [show rowChars [f] = escField f ++ ['\n'] from rfl, List.append_assoc,
      show ['\n'] ++ rest = '\n' :: rest from rfl, csvAux_field_newline]
    simp
  | f :: g :: fs, _ => by
    intro rest rowAcc rows
    rw [show rowChars (f :: g :: fs) = escField f ++ ',' :: rowChars (g :: fs) from rfl,
      List.append_assoc,
      show (',' :: rowChars (g :: fs)) ++ rest = ',' :: (rowChars (g :: fs) ++ rest) from rfl,
      csvAux_field_comma,
      csvAux_rowChars (g :: fs) (by simp) rest (f :: rowAcc) rows]
    simp

/-- Reading a rendered sequence of rows returns exactly those rows. -/
theorem csvAux_csvChars : ∀ (rs : List (List (List Char))), (∀ r ∈ rs, r ≠ []) →
    ∀ rows : List (List (List Char)),
    csvAux CsvMode.field (csvChars rs) [] [] rows = some (rows.reverse ++ rs)
  | [], _ => by
    intro rows
    simp [csvChars, csvAux]
  | r :: rs, h => by
    intro rows
    rw [show csvChars (r :: rs) = rowChars r ++ csvChars rs from rfl,
      csvAux_rowChars r (h r (List.mem_cons_self r rs)) (csvChars rs) [] rows]
    simp only [List.reverse_nil, List.nil_append]
    rw [csvAux_csvChars rs (fun x hx => h x (List.mem_cons_of_mem r hx)) (r :: rows)]
    simp

/-- Round trip of the delimited format on raw rows: any sequence of
nonempty rows of arbitrary fields is recovered exactly. -/
theorem parseCsv_csvChars (rs : List (List (List Char))) (h : ∀ r ∈ rs, r ≠ []) :
    parseCsv (csvChars rs) = some rs := by
  rw [parseCsv, csvAux_csvChars rs h []]
  rfl

/-- Rebuilding a record from its rendered fields recovers the record. -/
theorem rowToProduct_productRow (p : Product) :
    rowToProduct (productRow p) = some p := by
  rw [productRow, rowToProduct]
  simp only [parseQ_renderQ, parseNat_renderNat]

/-- Rebuilding every record of a rendered body recovers the record set. -/
theorem rowsToProducts_map (F : List Product) :
    rowsToProducts (F.map productRow) = some F := by
  induction F with
  | nil => rfl
  | cons p F ih =>
    rw [List.map_cons, rowsToProducts, rowToProduct_productRow, ih]

/-- C8: exporting a filtered record set to the delimited text format and
re-parsing the result yields the same record set — same attributes (the
header row is checked), same values, same order — for every record set,
including names or categories containing commas, quotes or newlines, which
the quoting discipline protects. -/
theorem C8_csv_round_trip (F : List Product) :
    parseProducts (productsCsv F) = some F := by
  have hne : ∀ r ∈ headerFields :: F.map productRow, r ≠ [] := by
    intro r hr
    rcases List.mem_cons.mp hr with rfl | hr
    · simp [headerFields]
    · obtain ⟨p, _, rfl⟩ := List.mem_map.mp hr
      simp [productRow]
  rw [parseProducts, productsCsv, parseCsv_csvChars (headerFields :: F.map productRow) hne]
  simp only [if_pos rfl]
  exact rowsToProducts_map F

end Banggood
